import Mathlib

/-! # Verification of the snippet-marker analysis scripts

Shallow embedding of the marker-analysis core: the tokenizer that turns
file text into START/END marker events, the stack-based nesting validator
of the find-nested-tags script, and the substring-ambiguity detector of
the find-duplicate-start-tags script.  Strings are modelled as lists of
characters where scanning is concerned; file reads that fail are modelled
by an absent content value. -/

namespace Snippets

/-- Character class matched by the whitespace escape of JavaScript
regular expressions (and stripped by the string trim method). -/
def jsWhitespace (c : Char) : Bool :=
  c == ' ' || c == '\t' || c == '\n' || c == '\r' || c == '\x0b' || c == '\x0c' ||
  c == '\u00A0' || c == '\u1680' ||
  (decide (0x2000 ≤ c.toNat) && decide (c.toNat ≤ 0x200A)) ||
  c == '\u2028' || c == '\u2029' || c == '\u202F' || c == '\u205F' ||
  c == '\u3000' || c == '\uFEFF'

/-- One match of the bracket pattern for the given keyword (START or END)
anchored at the head of the list, mirroring the regex: a literal opening
bracket and keyword, one or more whitespace characters, a non-empty
greedy capture of characters other than the closing bracket, then the
closing bracket.  Backtracking between the greedy whitespace run and the
capture means: the match ends at the first closing bracket after the
keyword, provided at least two characters stand before it (so at least
one is left for the capture after at least one whitespace); the capture
starts after the whitespace run, or one character earlier when the run
reaches the closing bracket.  Returns the raw capture and the number of
characters consumed by the whole match. -/
def matchTagAt (kw : List Char) (l : List Char) : Option (List Char × Nat) :=
  if ('[' :: kw).isPrefixOf l then
    let after := l.drop (kw.length + 1)
    match after with
    | [] => none
    | c :: _ =>
      if jsWhitespace c then
        let pre := after.takeWhile (fun d => d != ']')
        if pre.length < after.length then
          if 2 ≤ pre.length then
            let wsLen := (after.takeWhile jsWhitespace).length
            some (pre.drop (min wsLen (pre.length - 1)), kw.length + 1 + pre.length + 1)
          else none
        else none
      else none
  else none

/-- All matches of the keyword pattern in a line, left to right, resuming
after the end of each match, as the exec loop over a global regex does.
The fuel argument, initialised to the length of the line, only bounds the
recursion; every step consumes at least one character, so the fuel never
runs out before the line does. -/
def scanAux (kw : List Char) : Nat → List Char → List (List Char)
  | 0, _ => []
  | _ + 1, [] => []
  | fuel + 1, c :: rest =>
    match matchTagAt kw (c :: rest) with
    | some (cap, len) => cap :: scanAux kw fuel ((c :: rest).drop len)
    | none => scanAux kw fuel rest

/-- All raw captures of the keyword pattern in one line, left to right. -/
def scanLine (kw : List Char) (l : List Char) : List (List Char) :=
  scanAux kw l.length l

/-- JavaScript string trim: strip leading and trailing whitespace. -/
def jsTrim (l : List Char) : List Char :=
  ((l.dropWhile jsWhitespace).reverse.dropWhile jsWhitespace).reverse

/-- Split on newline characters, keeping empty segments, as the string
split method does. -/
def splitLines : List Char → List (List Char)
  | [] => [[]]
  | '\n' :: rest => [] :: splitLines rest
  | c :: rest =>
    match splitLines rest with
    | [] => [[c]]
    | line :: more => (c :: line) :: more

/-- Marker kind. -/
inductive EvType where
  | START : EvType
  | END : EvType
deriving DecidableEq

/-- One marker occurrence: kind, trimmed tag, 1-based line, source file. -/
structure MarkerEvent where
  type : EvType
  tag : String
  line : Nat
  file : String
deriving DecidableEq

/-- Keyword of the START pattern. -/
abbrev startKw : List Char := ['S', 'T', 'A', 'R', 'T']

/-- Keyword of the END pattern. -/
abbrev endKw : List Char := ['E', 'N', 'D']

/-- Events contributed by one line: all START matches first, then all END
matches, each group left to right, because the two exec loops over the
line run one after the other.  Captures are trimmed at event creation. -/
def lineEvents (file : String) (lineNum : Nat) (line : List Char) : List MarkerEvent :=
  (scanLine startKw line).map (fun cap => ⟨.START, String.mk (jsTrim cap), lineNum, file⟩) ++
  (scanLine endKw line).map (fun cap => ⟨.END, String.mk (jsTrim cap), lineNum, file⟩)

/-- The per-line loop of the tokenizer, carrying the 1-based line number. -/
def parseLines (file : String) : Nat → List (List Char) → List MarkerEvent
  | _, [] => []
  | n, line :: rest => lineEvents file n line ++ parseLines file (n + 1) rest

/-- The tokenizer.  Content is optional: an absent value stands for a file
whose read threw, which the catch clause turns into an empty event list. -/
def parseTagEvents (file : String) (content : Option String) : List MarkerEvent :=
  match content with
  | none => []
  | some text => parseLines file 1 (splitLines text.data)

/-- A reported nesting relationship. -/
structure NestedPair where
  outer : MarkerEvent
  inner : MarkerEvent
  depth : Nat
deriving DecidableEq

/-- Structural findings of the nesting validator. -/
inductive StructuralError where
  | unmatchedEnd (tag : String) (line : Nat)
  | mismatchedEnd (expected got : String) (startLine endLine : Nat)
  | unclosedStart (tag : String) (line : Nat)
deriving DecidableEq

/-- Validator state: the stack of open Start events (index 0 the
outermost, the top at the back, as in the array the script pushes to),
plus the accumulated pairs and errors. -/
structure ValState where
  stack : List MarkerEvent
  nestedPairs : List NestedPair
  errors : List StructuralError
deriving DecidableEq

/-- Processing of a single event by the nesting validator. -/
def step (s : ValState) (e : MarkerEvent) : ValState :=
  match e.type with
  | .START =>
    let s1 :=
      match s.stack.getLast? with
      | some top =>
        { s with nestedPairs := s.nestedPairs ++ [NestedPair.mk top e (s.stack.length + 1)] }
      | none => s
    { s1 with stack := s1.stack ++ [e] }
  | .END =>
    match s.stack.getLast? with
    | none => { s with errors := s.errors ++ [.unmatchedEnd e.tag e.line] }
    | some top =>
      if top.tag = e.tag then { s with stack := s.stack.dropLast }
      else
        { s with stack := s.stack.dropLast,
                 errors := s.errors ++ [.mismatchedEnd top.tag e.tag top.line e.line] }

/-- The event loop of the validator, from the empty initial state. -/
def runValidator (events : List MarkerEvent) : ValState :=
  events.foldl step ⟨[], [], []⟩

/-- Per-file result of the nesting analysis. -/
structure FileReport where
  file : String
  nestedPairs : List NestedPair
  errors : List StructuralError
  totalTags : Nat
deriving DecidableEq

/-- Nesting analysis of one file's event sequence: absent when the file
contributed no events; otherwise the validator's pairs and errors, with
one unclosed-start error per frame left on the stack, in stack order. -/
def findNestedTagsEvents (file : String) (events : List MarkerEvent) : Option FileReport :=
  if events = [] then none
  else
    let final := runValidator events
    some ⟨file, final.nestedPairs,
          final.errors ++ final.stack.map (fun u => .unclosedStart u.tag u.line),
          events.length⟩

/-- Nesting analysis of one file from its raw content. -/
def findNestedTags (file : String) (content : Option String) : Option FileReport :=
  findNestedTagsEvents file (parseTagEvents file content)

/-- Contiguous-substring test, as the string includes method computes it:
the needle occurs as a prefix of some suffix of the haystack. -/
def jsIncludes (hay needle : List Char) : Bool :=
  needle.isPrefixOf hay ||
    match hay with
    | [] => false
    | _ :: t => jsIncludes t needle

/-- An ordered substring collision between two distinct tag names. -/
structure SubstringPair where
  substring : String
  superstring : String
deriving DecidableEq

/-- Strict lexicographic order on character lists by character value,
as the default array sort compares strings (code-unit by code-unit). -/
def charListLt : List Char → List Char → Bool
  | [], [] => false
  | [], _ :: _ => true
  | _ :: _, [] => false
  | a :: s, b :: t =>
    if a.toNat < b.toNat then true
    else if b.toNat < a.toNat then false
    else charListLt s t

/-- Non-strict counterpart used to keep insertion stable. -/
def strLe (a b : String) : Bool := ! charListLt b.data a.data

/-- Insertion of a name into an already sorted list of names. -/
def insertSorted (a : String) : List String → List String
  | [] => [a]
  | b :: t => if strLe a b then a :: b :: t else b :: insertSorted a t

/-- Sorting by the order on strings (lexicographic in the character
values, as the default array sort compares strings). -/
def sortStrings : List String → List String
  | [] => []
  | a :: t => insertSorted a (sortStrings t)

/-- The distinct tag names, sorted, as the spread of a set followed by
the default sort produces them.  The names are distinct after
deduplication, so the sorted result is the same whatever stable sort the
runtime uses. -/
def uniqueSorted (allTags : List String) : List String :=
  sortStrings allTags.dedup

/-- The substring-ambiguity detector: the double loop over the distinct
sorted tags, emitting a pair whenever the tag at one index is contained
in the different tag at another index. -/
def findSubstringTags (allTags : List String) : List SubstringPair :=
  let uniqueTags := uniqueSorted allTags
  (List.range uniqueTags.length).flatMap fun i =>
    (List.range uniqueTags.length).filterMap fun j =>
      if i ≠ j then
        let shorter := uniqueTags.getD i ""
        let longer := uniqueTags.getD j ""
        if jsIncludes longer.data shorter.data && shorter != longer then
          some ⟨shorter, longer⟩
        else none
      else none

/-- The aggregation loop of the driver over the scanned files: per-file
pairs and errors are concatenated in file order; files whose analysis is
absent, or reports no tags, contribute nothing.  (The driver also
rewrites paths relative to the root for display, which is presentation
and not modelled.) -/
def scanFiles (files : List (String × Option String)) :
    List NestedPair × List StructuralError :=
  files.foldl
    (fun acc fc =>
      match findNestedTags fc.1 fc.2 with
      | some r => if 0 < r.totalTags then (acc.1 ++ r.nestedPairs, acc.2 ++ r.errors) else acc
      | none => acc)
    ([], [])

/-- The number of regions simultaneously open after a sequence of events:
a Start opens one, an End closes the most recent open one when there is
any.  This is the specification-side count the depth invariant refers
to. -/
def openCount (events : List MarkerEvent) : Nat :=
  events.foldl
    (fun c e =>
      match e.type with
      | .START => c + 1
      | .END => c - 1)
    0

/-- Properly nested event sequences: every Start is closed later by an
End carrying the identical tag, and regions close in last-opened,
first-closed order.  Line numbers and files are unconstrained. -/
inductive Balanced : List MarkerEvent → Prop where
  | nil : Balanced []
  | wrap (t : String) (l₁ l₂ : Nat) (f₁ f₂ : String) {m : List MarkerEvent} :
      Balanced m → Balanced (⟨.START, t, l₁, f₁⟩ :: m ++ [⟨.END, t, l₂, f₂⟩])
  | append {m n : List MarkerEvent} : Balanced m → Balanced n → Balanced (m ++ n)

/-- Order the tokenizer guarantees between two emitted events: strictly
later line, or same line with the earlier event a Start or the later an
End (Starts of a line are emitted before its Ends). -/
def eventLE (a b : MarkerEvent) : Prop :=
  a.line < b.line ∨ (a.line = b.line ∧ (a.type = .START ∨ b.type = .END))

/-- The per-event update of the open-region count. -/
def ocStep (c : Nat) (e : MarkerEvent) : Nat :=
  match e.type with
  | .START => c + 1
  | .END => c - 1

theorem openCount_eq_foldl (events : List MarkerEvent) :
    openCount events = events.foldl ocStep 0 := by
  unfold openCount ocStep
  rfl

/-! ## Step equations of the nesting validator -/

theorem step_start_nested (s : ValState) (e top : MarkerEvent)
    (he : e.type = .START) (htop : s.stack.getLast? = some top) :
    step s e = { s with
                 nestedPairs := s.nestedPairs ++ [NestedPair.mk top e (s.stack.length + 1)],
                 stack := s.stack ++ [e] } := by
  unfold step
  rw [he, htop]

theorem step_start_outermost (s : ValState) (e : MarkerEvent)
    (he : e.type = .START) (htop : s.stack.getLast? = none) :
    step s e = { s with stack := s.stack ++ [e] } := by
  unfold step
  rw [he, htop]

theorem step_end_unmatched (s : ValState) (e : MarkerEvent)
    (he : e.type = .END) (htop : s.stack.getLast? = none) :
    step s e = { s with errors := s.errors ++ [StructuralError.unmatchedEnd e.tag e.line] } := by
  unfold step
  rw [he, htop]

theorem step_end_clean (s : ValState) (e top : MarkerEvent)
    (he : e.type = .END) (htop : s.stack.getLast? = some top) (ht : top.tag = e.tag) :
    step s e = { s with stack := s.stack.dropLast } := by
  unfold step
  rw [he, htop]
  simp [ht]

theorem step_end_mismatched (s : ValState) (e top : MarkerEvent)
    (he : e.type = .END) (htop : s.stack.getLast? = some top) (ht : top.tag ≠ e.tag) :
    step s e = { s with
                 stack := s.stack.dropLast,
                 errors := s.errors ++
                   [StructuralError.mismatchedEnd top.tag e.tag top.line e.line] } := by
  unfold step
  rw [he, htop]
  simp [ht]

/-- A step changes the stack length exactly as the open-region counter
says: plus one on a Start, truncated minus one on an End. -/
theorem step_stack_length (s : ValState) (e : MarkerEvent) :
    (step s e).stack.length = ocStep s.stack.length e := by
  unfold step ocStep
  cases he : e.type with
  | START =>
    cases htop : s.stack.getLast? <;> simp
  | END =>
    cases htop : s.stack.getLast? with
    | none =>
      have : s.stack = [] := List.getLast?_eq_none_iff.mp htop
      simp [this]
    | some top =>
      have hne : s.stack ≠ [] := by
        intro hnil
        rw [hnil] at htop
        simp at htop
      by_cases ht : top.tag = e.tag <;> simp [ht, List.length_dropLast]

/-- Along any run, the stack length is the fold of the open-region
counter over the consumed events. -/
theorem foldl_step_stack_length (l : List MarkerEvent) :
    ∀ s : ValState, (l.foldl step s).stack.length = l.foldl ocStep s.stack.length := by
  induction l with
  | nil => intro s; rfl
  | cons e t ih =>
    intro s
    simp only [List.foldl_cons]
    rw [ih, step_stack_length]

/-- The open-region count of a sequence is the stack size the validator
ends up with on it. -/
theorem openCount_eq_stack_length (events : List MarkerEvent) :
    openCount events = (runValidator events).stack.length := by
  rw [openCount_eq_foldl, runValidator, foldl_step_stack_length]
  rfl

/-- A step never removes already-emitted pairs: it appends zero or one. -/
theorem step_pairs_mono (s : ValState) (e : MarkerEvent) :
    ∃ t, (step s e).nestedPairs = s.nestedPairs ++ t := by
  unfold step
  cases he : e.type with
  | START =>
    cases htop : s.stack.getLast? with
    | none => exact ⟨[], by simp⟩
    | some top => exact ⟨[NestedPair.mk top e (s.stack.length + 1)], by simp⟩
  | END =>
    cases htop : s.stack.getLast? with
    | none => exact ⟨[], by simp⟩
    | some top => by_cases ht : top.tag = e.tag <;> exact ⟨[], by simp [ht]⟩

/-- A step never removes already-emitted errors. -/
theorem step_errors_mono (s : ValState) (e : MarkerEvent) :
    ∃ t, (step s e).errors = s.errors ++ t := by
  unfold step
  cases he : e.type with
  | START =>
    cases htop : s.stack.getLast? with
    | none => exact ⟨[], by simp⟩
    | some top => exact ⟨[], by simp⟩
  | END =>
    cases htop : s.stack.getLast? with
    | none => exact ⟨[StructuralError.unmatchedEnd e.tag e.line], by simp⟩
    | some top =>
      by_cases ht : top.tag = e.tag
      · exact ⟨[], by simp [ht]⟩
      · exact ⟨[StructuralError.mismatchedEnd top.tag e.tag top.line e.line], by simp [ht]⟩

/-- On a Start the stack grows by the event at the back and the errors
are untouched, whether or not a pair is emitted. -/
theorem step_start_stack_errors (s : ValState) (e : MarkerEvent) (he : e.type = .START) :
    (step s e).stack = s.stack ++ [e] ∧ (step s e).errors = s.errors := by
  unfold step
  rw [he]
  cases s.stack.getLast? <;> simp

/-- The stack after a step is a sub-sequence of the old stack with the
event possibly appended at the back. -/
theorem step_stack_sublist (s : ValState) (e : MarkerEvent) :
    List.Sublist (step s e).stack (s.stack ++ [e]) := by
  unfold step
  cases he : e.type with
  | START => cases htop : s.stack.getLast? <;> simp
  | END =>
    cases htop : s.stack.getLast? with
    | none =>
      simp only []
      exact List.sublist_append_left _ _
    | some top =>
      by_cases ht : top.tag = e.tag <;>
        simp only [ht, if_true, if_false, reduceIte] <;>
        exact (List.dropLast_sublist _).trans (List.sublist_append_left _ _)

/-- Along any run, the final stack is a sub-sequence of the initial stack
followed by the consumed events: frames sit on the stack in the order
they were pushed. -/
theorem foldl_step_stack_sublist (l : List MarkerEvent) :
    ∀ s : ValState, List.Sublist (l.foldl step s).stack (s.stack ++ l) := by
  induction l with
  | nil => intro s; simp
  | cons e t ih =>
    intro s
    simp only [List.foldl_cons]
    refine (ih (step s e)).trans ?_
    have h1 : List.Sublist ((step s e).stack ++ t) ((s.stack ++ [e]) ++ t) :=
      (step_stack_sublist s e).append_right t
    simpa [List.append_assoc] using h1

/-- The validator's final stack is a sub-sequence of the event list. -/
theorem runValidator_stack_sublist (events : List MarkerEvent) :
    List.Sublist (runValidator events).stack events := by
  have h := foldl_step_stack_sublist events ⟨[], [], []⟩
  simpa [runValidator] using h

/-- Steps only ever push Start events onto the stack. -/
theorem step_stack_types (s : ValState) (e : MarkerEvent)
    (h : ∀ x ∈ s.stack, x.type = EvType.START) :
    ∀ x ∈ (step s e).stack, x.type = EvType.START := by
  unfold step
  cases he : e.type with
  | START =>
    cases htop : s.stack.getLast? <;>
      · intro x hx
        simp only [List.mem_append, List.mem_singleton] at hx
        rcases hx with hx | rfl
        · exact h x hx
        · exact he
  | END =>
    cases htop : s.stack.getLast? with
    | none => exact h
    | some top =>
      by_cases ht : top.tag = e.tag <;>
        simp only [ht, if_true, if_false, reduceIte] <;>
        exact fun x hx => h x (List.dropLast_subset _ hx)

/-- Every frame on the validator's final stack is a Start event. -/
theorem runValidator_stack_types (events : List MarkerEvent) :
    ∀ x ∈ (runValidator events).stack, x.type = EvType.START := by
  suffices h : ∀ s : ValState, (∀ x ∈ s.stack, x.type = EvType.START) →
      ∀ x ∈ (events.foldl step s).stack, x.type = EvType.START by
    exact h ⟨[], [], []⟩ (by intro x hx; simp at hx)
  induction events with
  | nil => intro s hs; exact hs
  | cons e t ih =>
    intro s hs
    simp only [List.foldl_cons]
    exact ih (step s e) (step_stack_types s e hs)

/-- Over a properly nested block the validator returns the stack to what
it was and emits no error, from any starting state. -/
theorem balanced_foldl {m : List MarkerEvent} (hb : Balanced m) :
    ∀ s : ValState, (m.foldl step s).stack = s.stack ∧ (m.foldl step s).errors = s.errors := by
  induction hb with
  | nil => intro s; exact ⟨rfl, rfl⟩
  | @wrap t l₁ l₂ f₁ f₂ m' hm ih =>
    intro s
    simp only [List.foldl_cons, List.foldl_append, List.foldl_nil]
    obtain ⟨hst, herr⟩ := step_start_stack_errors s ⟨.START, t, l₁, f₁⟩ rfl
    obtain ⟨hst2, herr2⟩ := ih (step s ⟨.START, t, l₁, f₁⟩)
    have htop : (List.foldl step (step s ⟨.START, t, l₁, f₁⟩) m').stack.getLast? =
        some ⟨.START, t, l₁, f₁⟩ := by
      rw [hst2, hst]
      exact List.getLast?_concat _
    have hclean := step_end_clean (List.foldl step (step s ⟨.START, t, l₁, f₁⟩) m')
      ⟨.END, t, l₂, f₂⟩ ⟨.START, t, l₁, f₁⟩ rfl htop rfl
    rw [hclean]
    constructor
    · simp only [hst2, hst, List.dropLast_concat]
    · simp only [herr2, herr]
  | append hm hn ihm ihn =>
    intro s
    simp only [List.foldl_append]
    obtain ⟨hst1, herr1⟩ := ihm s
    obtain ⟨hst2, herr2⟩ := ihn _
    rw [hst2, herr2, hst1, herr1]
    exact ⟨rfl, rfl⟩

/-! ## Tokenizer lemmas -/

theorem data_mk (l : List Char) : (String.mk l).data = l := rfl

/-- Every event a line contributes carries that line's number. -/
theorem mem_lineEvents_line {f : String} {n : Nat} {line : List Char} {e : MarkerEvent}
    (h : e ∈ lineEvents f n line) : e.line = n := by
  unfold lineEvents at h
  rcases List.mem_append.mp h with h | h <;> obtain ⟨cap, hcap, rfl⟩ := List.mem_map.mp h <;> rfl

/-- Within one line's contribution the tokenizer order holds: the Start
events all come first, then the End events. -/
theorem lineEvents_pairwise (f : String) (n : Nat) (line : List Char) :
    (lineEvents f n line).Pairwise eventLE := by
  unfold lineEvents
  rw [List.pairwise_append]
  refine ⟨?_, ?_, ?_⟩
  · refine List.pairwise_of_forall_mem_list ?_
    intro a ha b hb
    obtain ⟨cap, hcap, rfl⟩ := List.mem_map.mp ha
    obtain ⟨cap2, hcap2, rfl⟩ := List.mem_map.mp hb
    exact Or.inr ⟨rfl, Or.inl rfl⟩
  · refine List.pairwise_of_forall_mem_list ?_
    intro a ha b hb
    obtain ⟨cap, hcap, rfl⟩ := List.mem_map.mp ha
    obtain ⟨cap2, hcap2, rfl⟩ := List.mem_map.mp hb
    exact Or.inr ⟨rfl, Or.inr rfl⟩
  · intro a ha b hb
    obtain ⟨cap, hcap, rfl⟩ := List.mem_map.mp ha
    obtain ⟨cap2, hcap2, rfl⟩ := List.mem_map.mp hb
    exact Or.inr ⟨rfl, Or.inl rfl⟩

/-- Events of later lines carry line numbers at least the starting one. -/
theorem mem_parseLines_line_ge (f : String) :
    ∀ (lines : List (List Char)) (n : Nat) (e : MarkerEvent),
      e ∈ parseLines f n lines → n ≤ e.line := by
  intro lines
  induction lines with
  | nil =>
    intro n e h
    simp [parseLines] at h
  | cons line rest ih =>
    intro n e h
    unfold parseLines at h
    rcases List.mem_append.mp h with h | h
    · rw [mem_lineEvents_line h]
    · exact Nat.le_trans (Nat.le_succ n) (ih (n + 1) e h)

/-- The per-line loop keeps events ordered by line, Starts before Ends
within a line. -/
theorem parseLines_pairwise (f : String) :
    ∀ (lines : List (List Char)) (n : Nat), (parseLines f n lines).Pairwise eventLE := by
  intro lines
  induction lines with
  | nil => intro n; simp [parseLines]
  | cons line rest ih =>
    intro n
    unfold parseLines
    rw [List.pairwise_append]
    refine ⟨lineEvents_pairwise f n line, ih (n + 1), ?_⟩
    intro a ha b hb
    have h1 := mem_lineEvents_line ha
    have h2 := mem_parseLines_line_ge f rest (n + 1) b hb
    exact Or.inl (by omega)

/-- A successful match yields a capture free of the closing bracket and
consumes at least one character. -/
theorem matchTagAt_spec {kw l : List Char} {cap : List Char} {len : Nat}
    (h : matchTagAt kw l = some (cap, len)) : (']' ∉ cap) ∧ 1 ≤ len := by
  simp only [matchTagAt] at h
  split at h
  · split at h
    · exact absurd h (by simp)
    · split at h
      · split at h
        · split at h
          · simp only [Option.some.injEq, Prod.mk.injEq] at h
            obtain ⟨rfl, rfl⟩ := h
            refine ⟨?_, by omega⟩
            intro hmem
            have hpre := List.mem_takeWhile_imp (List.drop_subset _ _ hmem)
            simp at hpre
          · exact absurd h (by simp)
        · exact absurd h (by simp)
      · exact absurd h (by simp)
  · exact absurd h (by simp)

/-- No capture the scanner returns contains the closing bracket. -/
theorem scanAux_no_bracket (kw : List Char) :
    ∀ (fuel : Nat) (l : List Char) (cap : List Char),
      cap ∈ scanAux kw fuel l → ']' ∉ cap := by
  intro fuel
  induction fuel with
  | zero =>
    intro l cap h
    simp [scanAux] at h
  | succ fl ih =>
    intro l cap h
    match l with
    | [] => simp [scanAux] at h
    | c :: rest =>
      simp only [scanAux] at h
      split at h
      · rename_i cp ln heq
        rcases List.mem_cons.mp h with rfl | h
        · exact (matchTagAt_spec heq).1
        · exact ih _ cap h
      · exact ih rest cap h

/-- Dropping a satisfying run is idempotent. -/
theorem dropWhile_dropWhile {α : Type} (p : α → Bool) (l : List α) :
    (l.dropWhile p).dropWhile p = l.dropWhile p := by
  induction l with
  | nil => rfl
  | cons a t ih =>
    by_cases h : p a
    · simp [List.dropWhile_cons, h, ih]
    · simp [List.dropWhile_cons, h]

/-- A list whose front survives dropping keeps surviving after being cut
at the back. -/
theorem dropWhile_eq_self_of_append {α : Type} (p : α → Bool) {X t Y : List α}
    (hfix : Y.dropWhile p = Y) (happ : X ++ t = Y) : X.dropWhile p = X := by
  cases X with
  | nil => rfl
  | cons x xt =>
    have hY : Y = x :: (xt ++ t) := by rw [← happ]; rfl
    by_cases hpx : p x
    · exfalso
      rw [hY, List.dropWhile_cons] at hfix
      simp only [hpx, if_true, reduceIte] at hfix
      have hlen := congrArg List.length hfix
      obtain ⟨u, hu⟩ := List.dropWhile_suffix (l := xt ++ t) p
      have hlen2 := congrArg List.length hu
      simp only [List.length_append] at hlen2
      simp only [List.length_cons, List.length_append] at hlen
      omega
    · rw [List.dropWhile_cons]
      simp [hpx]

/-- Trimming is idempotent. -/
theorem jsTrim_idem (l : List Char) : jsTrim (jsTrim l) = jsTrim l := by
  have hA : (l.dropWhile jsWhitespace).dropWhile jsWhitespace = l.dropWhile jsWhitespace :=
    dropWhile_dropWhile _ _
  obtain ⟨t, ht⟩ := List.dropWhile_suffix (l := (l.dropWhile jsWhitespace).reverse) jsWhitespace
  have happ : ((l.dropWhile jsWhitespace).reverse.dropWhile jsWhitespace).reverse ++ t.reverse
      = l.dropWhile jsWhitespace := by
    have h2 := congrArg List.reverse ht
    rwa [List.reverse_append, List.reverse_reverse] at h2
  have hstep1 : ((l.dropWhile jsWhitespace).reverse.dropWhile jsWhitespace).reverse.dropWhile
      jsWhitespace = ((l.dropWhile jsWhitespace).reverse.dropWhile jsWhitespace).reverse :=
    dropWhile_eq_self_of_append jsWhitespace hA happ
  have hBfix : ((l.dropWhile jsWhitespace).reverse.dropWhile jsWhitespace).dropWhile jsWhitespace
      = (l.dropWhile jsWhitespace).reverse.dropWhile jsWhitespace :=
    dropWhile_dropWhile _ _
  unfold jsTrim
  rw [hstep1, List.reverse_reverse, hBfix]

/-- The characters of a trimmed list come from the original list. -/
theorem jsTrim_subset (l : List Char) : ∀ x ∈ jsTrim l, x ∈ l := by
  intro x hx
  unfold jsTrim at hx
  rw [List.mem_reverse] at hx
  have hx2 := List.dropWhile_subset jsWhitespace hx
  rw [List.mem_reverse] at hx2
  exact List.dropWhile_subset jsWhitespace hx2

/-- Every event of the per-line loop carries as tag a trimmed scanner
capture free of the closing bracket. -/
theorem mem_parseLines_tag (f : String) :
    ∀ (lines : List (List Char)) (n : Nat) (e : MarkerEvent),
      e ∈ parseLines f n lines →
      ∃ cap, (']' ∉ cap) ∧ e.tag = String.mk (jsTrim cap) := by
  intro lines
  induction lines with
  | nil =>
    intro n e h
    simp [parseLines] at h
  | cons line rest ih =>
    intro n e h
    unfold parseLines at h
    rcases List.mem_append.mp h with h | h
    · unfold lineEvents at h
      rcases List.mem_append.mp h with h | h <;>
        obtain ⟨cap, hcap, rfl⟩ := List.mem_map.mp h <;>
        exact ⟨cap, scanAux_no_bracket _ _ _ _ (by simpa [scanLine] using hcap), rfl⟩
    · exact ih (n + 1) e h

/-- Every tokenizer event's tag is some scanner capture, trimmed; the
capture contains no closing bracket. -/
theorem mem_parseTagEvents_tag {f : String} {content : Option String} {e : MarkerEvent}
    (h : e ∈ parseTagEvents f content) :
    ∃ cap, (']' ∉ cap) ∧ e.tag = String.mk (jsTrim cap) := by
  match content with
  | none => simp [parseTagEvents] at h
  | some text =>
    simp only [parseTagEvents] at h
    exact mem_parseLines_tag f (splitLines text.data) 1 e h

/-! ## Substring detector lemmas -/

theorem mem_insertSorted (a x : String) (l : List String) :
    x ∈ insertSorted a l ↔ x = a ∨ x ∈ l := by
  induction l with
  | nil => simp [insertSorted]
  | cons b t ih =>
    unfold insertSorted
    by_cases h : strLe a b = true
    · rw [if_pos h]
      simp only [List.mem_cons]
    · rw [if_neg h]
      simp only [List.mem_cons, ih]
      tauto

theorem mem_sortStrings (x : String) (l : List String) :
    x ∈ sortStrings l ↔ x ∈ l := by
  induction l with
  | nil => simp [sortStrings]
  | cons a t ih => simp [sortStrings, mem_insertSorted, ih]

theorem mem_uniqueSorted (x : String) (tags : List String) :
    x ∈ uniqueSorted tags ↔ x ∈ tags := by
  rw [uniqueSorted, mem_sortStrings, List.mem_dedup]

/-- The include test decides contiguous containment. -/
theorem jsIncludes_iff (hay needle : List Char) :
    jsIncludes hay needle = true ↔ ∃ u v, u ++ (needle ++ v) = hay := by
  induction hay with
  | nil =>
    cases needle with
    | nil => simp [jsIncludes, List.isPrefixOf]
    | cons c t => simp [jsIncludes, List.isPrefixOf]
  | cons c t ih =>
    rw [jsIncludes]
    simp only [Bool.or_eq_true, ih]
    constructor
    · rintro (hpre | ⟨u, v, huv⟩)
      · obtain ⟨v, hv⟩ := List.isPrefixOf_iff_prefix.mp hpre
        exact ⟨[], v, by simpa using hv⟩
      · exact ⟨c :: u, v, by simp [huv]⟩
    · rintro ⟨u, v, huv⟩
      cases u with
      | nil =>
        left
        exact List.isPrefixOf_iff_prefix.mpr ⟨v, by simpa using huv⟩
      | cons u0 ut =>
        right
        simp only [List.cons_append] at huv
        injection huv with h1 h2
        exact ⟨ut, v, h2⟩

/-- An in-range default lookup is a member. -/
theorem getD_mem_of_lt (l : List String) (i : Nat) (h : i < l.length) :
    l.getD i "" ∈ l := by
  rw [List.getD_eq_getElem?_getD, List.getElem?_eq_getElem h]
  exact List.getElem_mem h

/-- Membership in the detector output: exactly the ordered pairs of
distinct collected tags where the first occurs contiguously inside the
second. -/
theorem mem_findSubstringTags (tags : List String) (p : SubstringPair) :
    p ∈ findSubstringTags tags ↔
      p.substring ∈ tags ∧ p.superstring ∈ tags ∧
      (∃ u v, u ++ (p.substring.data ++ v) = p.superstring.data) ∧
      p.substring ≠ p.superstring := by
  unfold findSubstringTags
  simp only [List.mem_flatMap, List.mem_filterMap, List.mem_range]
  constructor
  · rintro ⟨i, hi, j, hj, hsome⟩
    split at hsome
    · split at hsome
      · rename_i hij hcond
        simp only [Option.some.injEq] at hsome
        obtain ⟨hinc, hne⟩ := Bool.and_eq_true_iff.mp hcond
        subst hsome
        refine ⟨?_, ?_, ?_, ?_⟩
        · exact (mem_uniqueSorted _ tags).mp (getD_mem_of_lt _ i hi)
        · exact (mem_uniqueSorted _ tags).mp (getD_mem_of_lt _ j hj)
        · exact (jsIncludes_iff _ _).mp hinc
        · exact bne_iff_ne.mp hne
      · exact absurd hsome (by simp)
    · exact absurd hsome (by simp)
  · rintro ⟨hsub, hsup, hinc, hne⟩
    obtain ⟨i, hi, hgi⟩ := List.mem_iff_getElem.mp ((mem_uniqueSorted _ tags).mpr hsub)
    obtain ⟨j, hj, hgj⟩ := List.mem_iff_getElem.mp ((mem_uniqueSorted _ tags).mpr hsup)
    have hij : i ≠ j := by
      intro hijeq
      subst hijeq
      apply hne
      rw [← hgi, ← hgj]
    refine ⟨i, hi, j, hj, ?_⟩
    rw [if_pos hij]
    have hgdi : (uniqueSorted tags).getD i "" = p.substring := by
      rw [List.getD_eq_getElem?_getD, List.getElem?_eq_getElem hi]
      simpa using hgi
    have hgdj : (uniqueSorted tags).getD j "" = p.superstring := by
      rw [List.getD_eq_getElem?_getD, List.getElem?_eq_getElem hj]
      simpa using hgj
    rw [hgdi, hgdj]
    have hcond : (jsIncludes p.superstring.data p.substring.data &&
        (p.substring != p.superstring)) = true :=
      Bool.and_eq_true_iff.mpr ⟨(jsIncludes_iff _ _).mpr hinc, bne_iff_ne.mpr hne⟩
    rw [if_pos hcond]

/-! ## Aggregation lemma -/

/-- A file whose analysis is absent contributes nothing to the scan, and
the remaining files are processed exactly as if it were not there. -/
theorem scanFiles_skip (f : String) (c : Option String)
    (h : findNestedTags f c = none) (pre post : List (String × Option String)) :
    scanFiles (pre ++ (f, c) :: post) = scanFiles (pre ++ post) := by
  unfold scanFiles
  rw [List.foldl_append, List.foldl_cons, List.foldl_append]
  congr 1
  simp [h]

/-- The scanner reads a line left to right: its captures arise, in list
order, from genuine pattern matches at strictly increasing positions of
the line. -/
theorem scanAux_positions (kw : List Char) :
    ∀ (fuel : Nat) (l : List Char), ∃ ps : List Nat,
      ps.Pairwise (fun a b => a < b) ∧
      List.Forall₂ (fun p cap => ∃ len, matchTagAt kw (l.drop p) = some (cap, len))
        ps (scanAux kw fuel l) := by
  intro fuel
  induction fuel with
  | zero =>
    intro l
    exact ⟨[], List.Pairwise.nil, by simp [scanAux]⟩
  | succ fl ih =>
    intro l
    match l with
    | [] => exact ⟨[], List.Pairwise.nil, by simp [scanAux]⟩
    | c :: rest =>
      cases hm : matchTagAt kw (c :: rest) with
      | some pr =>
        obtain ⟨cap, len⟩ := pr
        have hlen : 1 ≤ len := (matchTagAt_spec hm).2
        obtain ⟨ps', hps', hfa'⟩ := ih ((c :: rest).drop len)
        refine ⟨0 :: ps'.map (fun p => len + p), ?_, ?_⟩
        · rw [List.pairwise_cons]
          constructor
          · intro b hb
            obtain ⟨p, hp, rfl⟩ := List.mem_map.mp hb
            omega
          · refine List.Pairwise.map _ ?_ hps'
            intro a b hab
            omega
        · simp only [scanAux, hm]
          refine List.Forall₂.cons ⟨len, by simpa using hm⟩ ?_
          rw [List.forall₂_map_left_iff]
          refine hfa'.imp ?_
          intro p cp hpc
          rwa [List.drop_drop] at hpc
      | none =>
        obtain ⟨ps', hps', hfa'⟩ := ih rest
        refine ⟨ps'.map (fun p => 1 + p), ?_, ?_⟩
        · refine List.Pairwise.map _ ?_ hps'
          intro a b hab
          omega
        · simp only [scanAux, hm]
          rw [List.forall₂_map_left_iff]
          refine hfa'.imp ?_
          intro p cp hpc
          have hdrop : (c :: rest).drop (1 + p) = rest.drop p := by
            rw [Nat.add_comm]
            rfl
          rwa [hdrop]

/-! ## Claims -/

/-- C1: while the stack is non-empty, a Start event makes the validator
emit exactly one NestedPair whose outer is the value of the current stack
top, whose inner is the Start itself, and whose depth is the stack size
plus one, and then push the Start unconditionally (no duplicate-tag
check); the file with regions a around b yields exactly one pair with
outer a, inner b, depth 2, and zero errors. -/
theorem C1_nested_start_pair (s : ValState) (e top : MarkerEvent)
    (he : e.type = EvType.START) (htop : s.stack.getLast? = some top) :
    step s e = { s with
                 nestedPairs := s.nestedPairs ++ [NestedPair.mk top e (s.stack.length + 1)],
                 stack := s.stack ++ [e] }
    ∧ findNestedTags "f" (some "[START a]\n[START b]\n[END b]\n[END a]") =
        some ⟨"f", [⟨⟨.START, "a", 1, "f"⟩, ⟨.START, "b", 2, "f"⟩, 2⟩], [], 4⟩ :=
  ⟨step_start_nested s e top he htop, by decide⟩

theorem C1_witness :
    step ⟨[⟨.START, "a", 1, "f"⟩], [], []⟩ ⟨.START, "b", 2, "f"⟩ =
      ⟨[⟨.START, "a", 1, "f"⟩, ⟨.START, "b", 2, "f"⟩],
       [⟨⟨.START, "a", 1, "f"⟩, ⟨.START, "b", 2, "f"⟩, 2⟩], []⟩ :=
  ((C1_nested_start_pair ⟨[⟨.START, "a", 1, "f"⟩], [], []⟩ ⟨.START, "b", 2, "f"⟩
      ⟨.START, "a", 1, "f"⟩ (by decide) (by decide)).1).trans (by decide)

/-- C2 counterexample: on a single line holding the End marker of a
before the Start marker of b, the tokenizer emits the Start event first,
because each line is scanned for all Start matches before any End match;
so the emitted order is not the claimed left-to-right occurrence order. -/
theorem C2_counterexample_start_before_end :
    parseTagEvents "f" (some "[END a] [START b]") =
      [⟨.START, "b", 1, "f"⟩, ⟨.END, "a", 1, "f"⟩] ∧
    ([⟨.START, "b", 1, "f"⟩, ⟨.END, "a", 1, "f"⟩] : List MarkerEvent) ≠
      [⟨.END, "a", 1, "f"⟩, ⟨.START, "b", 1, "f"⟩] :=
  ⟨by decide, by decide⟩

/-- C2 amended: tokenizer events are totally ordered by line number, and
within one line all Start events precede all End events, each group in
left-to-right occurrence order; in particular a line containing an End
marker before a Start marker yields the Start event first, not the End.
The first conjunct gives the line ordering and the Start-before-End rule;
the second shows each group is in occurrence order: the captures a line's
scan emits stem, in list order, from matches at strictly increasing
positions; the third ties the groups to the events a line contributes,
in that capture order. -/
theorem C2_events_ordered (file : String) (content : Option String) :
    (parseTagEvents file content).Pairwise eventLE
    ∧ (∀ (kw : List Char) (line : List Char), ∃ ps : List Nat,
        ps.Pairwise (fun a b => a < b) ∧
        List.Forall₂ (fun p cap => ∃ len, matchTagAt kw (line.drop p) = some (cap, len))
          ps (scanLine kw line))
    ∧ ∀ (n : Nat) (line : List Char), lineEvents file n line =
        (scanLine startKw line).map (fun cap => ⟨.START, String.mk (jsTrim cap), n, file⟩) ++
        (scanLine endKw line).map (fun cap => ⟨.END, String.mk (jsTrim cap), n, file⟩) := by
  refine ⟨?_, fun kw line => scanAux_positions kw line.length line, fun n line => rfl⟩
  match content with
  | none => simp [parseTagEvents]
  | some text => exact parseLines_pairwise file (splitLines text.data) 1

/-- C3: an End event whose tag differs from the non-empty stack's top
makes the validator emit exactly one MismatchedEnd carrying the top's tag
and line and the End's tag and line, and pop the stack regardless; the
file with Start a then End b yields exactly that one error, an empty
stack, and no UnclosedStart. -/
theorem C3_mismatched_end (s : ValState) (e top : MarkerEvent)
    (he : e.type = EvType.END) (htop : s.stack.getLast? = some top)
    (hne : top.tag ≠ e.tag) :
    step s e = { s with
                 stack := s.stack.dropLast,
                 errors := s.errors ++
                   [StructuralError.mismatchedEnd top.tag e.tag top.line e.line] }
    ∧ findNestedTags "f" (some "[START a]\n[END b]") =
        some ⟨"f", [], [.mismatchedEnd "a" "b" 1 2], 2⟩ :=
  ⟨step_end_mismatched s e top he htop hne, by decide⟩

theorem C3_witness :
    step ⟨[⟨.START, "a", 1, "f"⟩], [], []⟩ ⟨.END, "b", 2, "f"⟩ =
      ⟨[], [], [.mismatchedEnd "a" "b" 1 2]⟩ :=
  ((C3_mismatched_end ⟨[⟨.START, "a", 1, "f"⟩], [], []⟩ ⟨.END, "b", 2, "f"⟩
      ⟨.START, "a", 1, "f"⟩ (by decide) (by decide) (by decide)).1).trans (by decide)

/-- C4 counterexample: an End whose tag is absent from every frame of the
non-empty stack produces a MismatchedEnd and no UnmatchedEnd, refuting
the claim that absence from the stack alone triggers UnmatchedEnd. -/
theorem C4_counterexample_absent_tag :
    (runValidator [⟨.START, "a", 1, "f"⟩]).stack = [⟨.START, "a", 1, "f"⟩] ∧
    (∀ x ∈ (runValidator [⟨.START, "a", 1, "f"⟩]).stack, x.tag ≠ "b") ∧
    (step (runValidator [⟨.START, "a", 1, "f"⟩]) ⟨.END, "b", 2, "f"⟩).errors =
      [.mismatchedEnd "a" "b" 1 2] := by
  refine ⟨by decide, by decide, by decide⟩

/-- C4 amended: processing an End event emits an UnmatchedEnd (then with
the End's own tag and line) exactly when the stack is empty at that
moment; with a non-empty stack, even a tag absent from every frame gives
a MismatchedEnd instead. -/
theorem C4_unmatched_iff_empty (s : ValState) (e : MarkerEvent)
    (he : e.type = EvType.END) :
    ((StructuralError.unmatchedEnd e.tag e.line ∈
        (step s e).errors.drop s.errors.length) ↔ s.stack = [])
    ∧ ∀ t l, StructuralError.unmatchedEnd t l ∈ (step s e).errors.drop s.errors.length →
        t = e.tag ∧ l = e.line := by
  cases htop : s.stack.getLast? with
  | none =>
    have hnil : s.stack = [] := List.getLast?_eq_none_iff.mp htop
    rw [step_end_unmatched s e he htop]
    constructor
    · simp [List.drop_left, hnil]
    · intro t l hmem
      simp only [List.drop_left, List.mem_singleton] at hmem
      injection hmem with h1 h2
      exact ⟨h1, h2⟩
  | some top =>
    have hne : s.stack ≠ [] := by
      intro h0
      rw [h0] at htop
      simp at htop
    by_cases ht : top.tag = e.tag
    · rw [step_end_clean s e top he htop ht]
      constructor
      · simp [List.drop_length, hne]
      · intro t l hmem
        simp [List.drop_length] at hmem
    · rw [step_end_mismatched s e top he htop ht]
      constructor
      · simp [List.drop_left, hne]
      · intro t l hmem
        simp only [List.drop_left, List.mem_singleton] at hmem
        exact absurd hmem (by simp)

theorem C4_witness :
    StructuralError.unmatchedEnd "x" 3 ∈
      (step (⟨[], [], []⟩ : ValState) ⟨.END, "x", 3, "f"⟩).errors.drop 0 :=
  (C4_unmatched_iff_empty ⟨[], [], []⟩ ⟨.END, "x", 3, "f"⟩ (by decide)).1.mpr rfl

/-- C5: the detector outputs exactly the ordered pairs of distinct
collected tag names in which the superstring contains the substring as a
contiguous character sequence; on the tags foo, foo_bar, baz it reports
exactly the single pair (foo, foo_bar), and baz appears in none. -/
theorem C5_substring_pairs (tags : List String) (p : SubstringPair) :
    (p ∈ findSubstringTags tags ↔
      p.substring ∈ tags ∧ p.superstring ∈ tags ∧
      (∃ u v, u ++ (p.substring.data ++ v) = p.superstring.data) ∧
      p.substring ≠ p.superstring)
    ∧ findSubstringTags ["foo", "foo_bar", "baz"] = [⟨"foo", "foo_bar"⟩] :=
  ⟨mem_findSubstringTags tags p, by decide⟩

/-- C6: once all events are processed, each frame left on the stack
produces exactly one UnclosedStart with the frame's tag and line,
appended in stack order; the stack is a sub-sequence of the event list
consisting of Start events, so that order is push order, outermost
first; a file with a lone Start x yields exactly one UnclosedStart x. -/
theorem C6_unclosed_frames (file : String) (events : List MarkerEvent) (r : FileReport)
    (h : findNestedTagsEvents file events = some r) :
    r.errors = (runValidator events).errors ++
      (runValidator events).stack.map (fun u => StructuralError.unclosedStart u.tag u.line)
    ∧ List.Sublist (runValidator events).stack events
    ∧ (∀ u ∈ (runValidator events).stack, u.type = EvType.START)
    ∧ findNestedTags "f" (some "[START x]") =
        some ⟨"f", [], [.unclosedStart "x" 1], 1⟩ := by
  refine ⟨?_, runValidator_stack_sublist events, runValidator_stack_types events, by decide⟩
  unfold findNestedTagsEvents at h
  split at h
  · exact absurd h (by simp)
  · simp only [Option.some.injEq] at h
    rw [← h]

theorem C6_witness :
    (⟨"f", [], [StructuralError.unclosedStart "x" 1], 1⟩ : FileReport).errors =
      (runValidator [⟨.START, "x", 1, "f"⟩]).errors ++
        (runValidator [⟨.START, "x", 1, "f"⟩]).stack.map
          (fun u => StructuralError.unclosedStart u.tag u.line) :=
  (C6_unclosed_frames "f" [⟨.START, "x", 1, "f"⟩]
    ⟨"f", [], [StructuralError.unclosedStart "x" 1], 1⟩ (by decide)).1

/-- C7: a file contributing zero marker events — unreadable content or no
markers — produces no report at all, and the scan of the remaining files
proceeds exactly as if the file were absent; unreadable content indeed
contributes zero events. -/
theorem C7_zero_events_no_findings (file : String) (content : Option String)
    (h : parseTagEvents file content = []) :
    findNestedTags file content = none
    ∧ parseTagEvents file none = []
    ∧ ∀ pre post, scanFiles (pre ++ (file, content) :: post) = scanFiles (pre ++ post) := by
  have hnone : findNestedTags file content = none := by
    unfold findNestedTags
    rw [h]
    simp [findNestedTagsEvents]
  exact ⟨hnone, rfl, fun pre post => scanFiles_skip file content hnone pre post⟩

theorem C7_witness :
    findNestedTags "f" (some "no markers here") = none :=
  (C7_zero_events_no_findings "f" (some "no markers here") (by decide)).1

/-- C8 counterexample: an all-whitespace bracket content such as the
Start marker with two spaces and no name matches, its capture is the
single space, and trimming makes the emitted tag the empty string. -/
theorem C8_counterexample_empty_tag :
    parseTagEvents "f" (some "[START  ]") = [⟨.START, "", 1, "f"⟩] ∧
    (⟨.START, "", 1, "f"⟩ : MarkerEvent).tag = "" :=
  ⟨by decide, rfl⟩

/-- C8 amended: every emitted event's tag is the bracket content trimmed
of leading and trailing whitespace (trimming again changes nothing) and
contains no closing bracket; but it is not always non-empty — bracket
content that is entirely whitespace yields the empty tag. -/
theorem C8_tag_trimmed_no_bracket (file : String) (content : Option String)
    (e : MarkerEvent) (h : e ∈ parseTagEvents file content) :
    jsTrim e.tag.data = e.tag.data ∧ ']' ∉ e.tag.data := by
  obtain ⟨cap, hcap, htag⟩ := mem_parseTagEvents_tag h
  rw [htag, data_mk]
  exact ⟨jsTrim_idem cap, fun hmem => hcap (jsTrim_subset cap ']' hmem)⟩

theorem C8_witness :
    jsTrim ((⟨.START, "a", 1, "f"⟩ : MarkerEvent).tag.data) =
      (⟨.START, "a", 1, "f"⟩ : MarkerEvent).tag.data ∧
    ']' ∉ ((⟨.START, "a", 1, "f"⟩ : MarkerEvent).tag.data) :=
  C8_tag_trimmed_no_bracket "f" (some "[START a]") ⟨.START, "a", 1, "f"⟩ (by decide)

/-- C9: a NestedPair first emitted while processing the event at index i
has depth no greater than the number of Start events opened and not yet
closed up to and including that event. -/
theorem C9_depth_bound (events : List MarkerEvent) (i : Nat) (hi : i < events.length)
    (p : NestedPair) (hp : p ∈ (runValidator (events.take (i + 1))).nestedPairs)
    (hnp : p ∉ (runValidator (events.take i)).nestedPairs) :
    p.depth ≤ openCount (events.take (i + 1)) := by
  have htake : events.take (i + 1) = events.take i ++ [events[i]] := by
    rw [List.take_succ, List.getElem?_eq_getElem hi]
    rfl
  rw [htake] at hp ⊢
  rw [openCount_eq_stack_length]
  have hrun : runValidator (events.take i ++ [events[i]]) =
      step (runValidator (events.take i)) events[i] := by
    unfold runValidator
    rw [List.foldl_append]
    rfl
  rw [hrun] at hp ⊢
  cases hety : events[i].type with
  | START =>
    cases htop : (runValidator (events.take i)).stack.getLast? with
    | none =>
      rw [step_start_outermost _ _ hety htop] at hp
      exact absurd hp hnp
    | some top =>
      rw [step_start_nested _ _ top hety htop] at hp ⊢
      simp only [List.mem_append, List.mem_singleton] at hp
      rcases hp with hp | rfl
      · exact absurd hp hnp
      · simp [List.length_append]
  | END =>
    cases htop : (runValidator (events.take i)).stack.getLast? with
    | none =>
      rw [step_end_unmatched _ _ hety htop] at hp
      exact absurd hp hnp
    | some top =>
      by_cases ht : top.tag = events[i].tag
      · rw [step_end_clean _ _ top hety htop ht] at hp
        exact absurd hp hnp
      · rw [step_end_mismatched _ _ top hety htop ht] at hp
        exact absurd hp hnp

theorem C9_witness :
    (⟨⟨.START, "a", 1, "f"⟩, ⟨.START, "b", 2, "f"⟩, 2⟩ : NestedPair).depth ≤
      openCount ([(⟨.START, "a", 1, "f"⟩ : MarkerEvent),
        ⟨.START, "b", 2, "f"⟩].take (1 + 1)) :=
  C9_depth_bound [⟨.START, "a", 1, "f"⟩, ⟨.START, "b", 2, "f"⟩] 1 (by decide)
    ⟨⟨.START, "a", 1, "f"⟩, ⟨.START, "b", 2, "f"⟩, 2⟩ (by decide) (by decide)

/-- C10: on a properly nested event sequence — every Start closed later
by an End of the identical tag, in last-opened first-closed order — the
validator emits no structural error and finishes with an empty stack, so
the file report, when present, carries no errors at all. -/
theorem C10_balanced_clean (file : String) (events : List MarkerEvent)
    (hb : Balanced events) :
    (runValidator events).errors = [] ∧ (runValidator events).stack = []
    ∧ ∀ r, findNestedTagsEvents file events = some r → r.errors = [] := by
  obtain ⟨hst, herr⟩ := balanced_foldl hb ⟨[], [], []⟩
  have h1 : (runValidator events).errors = [] := herr
  have h2 : (runValidator events).stack = [] := hst
  refine ⟨h1, h2, ?_⟩
  intro r hr
  unfold findNestedTagsEvents at hr
  split at hr
  · exact absurd hr (by simp)
  · simp only [Option.some.injEq] at hr
    rw [← hr]
    simp [h1, h2]

theorem C10_witness :
    (runValidator [⟨.START, "a", 1, "f"⟩, ⟨.START, "b", 2, "f"⟩,
      ⟨.END, "b", 3, "f"⟩, ⟨.END, "a", 4, "f"⟩]).errors = [] := by
  have hb : Balanced [⟨.START, "a", 1, "f"⟩, ⟨.START, "b", 2, "f"⟩,
      ⟨.END, "b", 3, "f"⟩, ⟨.END, "a", 4, "f"⟩] := by
    have h1 : Balanced ([] : List MarkerEvent) := Balanced.nil
    have h2 := Balanced.wrap "b" 2 3 "f" "f" h1
    have h3 := Balanced.wrap "a" 1 4 "f" "f" h2
    exact h3
  exact (C10_balanced_clean "f" _ hb).1

end Snippets
